import Mathlib

/-!
Verification development for the GraphRAG query-generation pipeline
(`workflow.py`).  The pure logic of the pipeline is embedded shallowly:

* `postProcessQuery` embeds `GraphRAG._post_process_query`, i.e. the single
  `re.sub` call with pattern `(\w+\.name\s*CONTAINS)\s*'([^']*)'` (IGNORECASE)
  and replacement `lower(<group1>) CONTAINS '<lowercased group2>'`.
  The regex engine is embedded directly: for this pattern Python's
  backtracking is determinate (each quantifier's greedy maximum is the only
  viable choice), so a left-to-right scan with maximal munch is exact.
  `\w` and `\s` are modelled at ASCII granularity (the queries manipulated by
  the pipeline are ASCII), and `str.lower` as ASCII `Char.toLower`.
* `validateAndRepairAux` embeds `GraphRAG._validate_and_repair_query`: the
  graph engine's `EXPLAIN` check and the `text2cypher` repair generation are
  oracles, indexed by the attempt counter so that a nondeterministic engine /
  generation service is covered.
-/

namespace Workflow

/-- ASCII model of Python regex `\w` (word character). -/
def isWordChar (c : Char) : Bool := c.isAlphanum || c = '_'

/-- ASCII model of Python regex `\s` (whitespace). -/
def isSpaceChar (c : Char) : Bool :=
  c = ' ' || c = '\t' || c = '\n' || c = '\r' || c = Char.ofNat 11 || c = Char.ofNat 12

/-- Case-insensitive match of the (lowercase) literal `pat` at the head of the
input; returns the consumed source characters (original casing) and the rest. -/
def matchCI : List Char → List Char → Option (List Char × List Char)
  | [], rest => some ([], rest)
  | _ :: _, [] => none
  | p :: ps, c :: cs =>
    if c.toLower = p then
      (matchCI ps cs).map (fun t => (c :: t.1, t.2))
    else
      none

/-- Attempt to match `(\w+\.name\s*CONTAINS)\s*'([^']*)'` (IGNORECASE) at the
head of the input.  On success returns (group 1, group 2, rest after the whole
match). -/
def matchAt (l : List Char) : Option (List Char × List Char × List Char) :=
  let w := l.takeWhile isWordChar
  let r1 := l.dropWhile isWordChar
  if w.isEmpty then none
  else
    match r1 with
    | '.' :: r2 =>
      match matchCI "name".toList r2 with
      | none => none
      | some (nm, r3) =>
        let s1 := r3.takeWhile isSpaceChar
        let r4 := r3.dropWhile isSpaceChar
        match matchCI "contains".toList r4 with
        | none => none
        | some (ct, r5) =>
          match r5.dropWhile isSpaceChar with
          | '\'' :: r7 =>
            match r7.dropWhile (fun c => c ≠ '\'') with
            | '\'' :: r9 =>
              some (w ++ '.' :: (nm ++ s1 ++ ct), r7.takeWhile (fun c => c ≠ '\''), r9)
            | _ => none
          | _ => none
    | _ => none

/-- ASCII model of Python `str.lower`. -/
def lowerStr (l : List Char) : List Char := l.map Char.toLower

/-- The replacement `f"lower({m.group(1)}) CONTAINS '{m.group(2).lower()}'"`. -/
def replOf (g1 g2 : List Char) : List Char :=
  "lower(".toList ++ g1 ++ ") CONTAINS ".toList ++ '\'' :: (lowerStr g2 ++ ['\''])

/-- Fuelled left-to-right non-overlapping substitution, exactly `re.sub`:
at each position try the pattern; on a match emit the replacement and resume
after the match, otherwise emit the character and move one position right. -/
def subFuel : Nat → List Char → List Char
  | 0, l => l
  | _ + 1, [] => []
  | n + 1, c :: cs =>
    match matchAt (c :: cs) with
    | some (g1, g2, rest) => replOf g1 g2 ++ subFuel n rest
    | none => c :: subFuel n cs

/-- Embedding of `GraphRAG._post_process_query` (workflow.py, lines 251-262). -/
def postProcessQuery (q : String) : String :=
  String.mk (subFuel q.data.length q.data)

/-- The repair prompt built in `_validate_and_repair_query` (line 243). -/
def repairPrompt (query err : String) : String :=
  "The previous query failed. Fix this query: " ++ query ++ ". Error: " ++ err

/-- Embedding of the loop body of `GraphRAG._validate_and_repair_query`
(workflow.py, lines 231-249).  `explain i s` is the graph engine's response to
`conn.execute(s)` on the `i`-th attempt (`none` = no exception, `some e` =
exception with message `e`); `gen i question schema` is the `text2cypher`
repair oracle.  Returns the final query together with the number of repair
generation requests issued. -/
def validateAndRepairAux (explain : Nat → String → Option String)
    (gen : Nat → String → String → String) : Nat → Nat → String → String × Nat
  | _, 0, query => (postProcessQuery query, 0)
  | i, r + 1, query =>
    match explain i ("EXPLAIN " ++ query) with
    | none => (postProcessQuery query, 0)
    | some e =>
      let q2 := gen i (repairPrompt query e) ""
      let p := validateAndRepairAux explain gen (i + 1) r q2
      (p.1, p.2 + 1)

/-- Embedding of `GraphRAG._validate_and_repair_query` with its default
`max_retries = 2`. -/
def validateAndRepairQuery (explain : Nat → String → Option String)
    (gen : Nat → String → String → String) (query : String)
    (maxRetries : Nat := 2) : String × Nat :=
  validateAndRepairAux explain gen 0 maxRetries query

/-- The candidate obtained by chaining `maxRetries` repair generations when
the engine reports error `errf i s` on the `i`-th attempt. -/
def repairChain (errf : Nat → String → String)
    (gen : Nat → String → String → String) : Nat → Nat → String → String
  | _, 0, q => q
  | i, r + 1, q =>
    repairChain errf gen (i + 1) r (gen i (repairPrompt q (errf i ("EXPLAIN " ++ q))) "")

/-- Pydantic model `Property` (workflow.py, lines 78-80). -/
structure Property where
  name : String
  type : String
deriving DecidableEq

/-- Pydantic model `Node` (workflow.py, lines 83-85). -/
structure Node where
  label : String
  properties : Option (List Property)
deriving DecidableEq

/-- The `Union[str, Node]` endpoint reference of an `Edge`. -/
inductive NodeRef
  | byLabel (label : String)
  | byNode (node : Node)
deriving DecidableEq

/-- Pydantic model `Edge` (workflow.py, lines 88-92). -/
structure Edge where
  label : String
  from_ : NodeRef
  to_ : NodeRef
  properties : Option (List Property)
deriving DecidableEq

/-- Pydantic model `GraphSchema` (workflow.py, lines 95-97). -/
structure GraphSchema where
  nodes : List Node
  edges : List Edge
deriving DecidableEq

/-- Pydantic model `Query` (workflow.py, lines 74-75). -/
structure Query where
  query : String
deriving DecidableEq

/-- A `dspy.Example(question=..., query=...)` as built by
`_get_retrieved_examples`. -/
structure DspyExample where
  question : String
  query : String
deriving DecidableEq

/-- Ordering used to rank retrieval hits: strictly higher score first; equal
scores ordered by corpus index (the stable tie-break of a descending sort). -/
def hitOrder (a b : Nat × ℚ) : Prop := b.2 < a.2 ∨ (a.2 = b.2 ∧ a.1 ≤ b.1)

instance : DecidableRel hitOrder := fun a b => by
  unfold hitOrder; infer_instance

instance : IsTotal (Nat × ℚ) hitOrder := ⟨by
  intro a b
  rcases lt_trichotomy a.2 b.2 with h | h | h
  · exact Or.inr (Or.inl h)
  · rcases Nat.le_total a.1 b.1 with h1 | h1
    · exact Or.inl (Or.inr ⟨h, h1⟩)
    · exact Or.inr (Or.inr ⟨h.symm, h1⟩)
  · exact Or.inl (Or.inl h)⟩

instance : IsTrans (Nat × ℚ) hitOrder := ⟨by
  intro a b c hab hbc
  rcases hab with h1 | ⟨h1, h1i⟩ <;> rcases hbc with h2 | ⟨h2, h2i⟩
  · exact Or.inl (h2.trans h1)
  · exact Or.inl (h2 ▸ h1)
  · exact Or.inl (lt_of_lt_of_eq h2 h1.symm)
  · exact Or.inr ⟨h1.trans h2, h1i.trans h2i⟩⟩

/-- Modelled from the spec: the repository delegates ranking to
`sentence_transformers.util.semantic_search(question_embedding,
trainset_embeddings, top_k=self.k)` (workflow.py, line 227), a library
routine that is not part of this repository.  It scores every corpus entry
against the question and returns the `min(top_k, corpus size)` best-scoring
entries as `{corpus_id, score}` hits sorted by descending score (it clamps
`top_k` to the corpus size rather than failing).  Similarity scores are the
oracle input `scores` (one value per corpus entry, modelled over `ℚ`), and
ties are broken by corpus index. -/
def semanticSearch (scores : List ℚ) (topK : Nat) : List (Nat × ℚ) :=
  (List.insertionSort hitOrder scores.enum).take topK

/-- Embedding of `GraphRAG._get_retrieved_examples` (workflow.py, lines
224-229): look each hit's `corpus_id` up in `self.trainset` and build
`dspy.Example(question=..., query=...)` records. -/
def getRetrievedExamples (trainset : List DspyExample) (scores : List ℚ)
    (k : Nat) : List DspyExample :=
  (semanticSearch scores k).map fun h => trainset.getD h.1 ⟨"", ""⟩

/-- Embedding of the body of `GraphRAG.get_cypher_query` (workflow.py, lines
264-277) for a single call.  Oracles: `retrieve` is `_get_retrieved_examples`;
`prune` is the `dspy.Predict(PruneSchema)` call, whose structured output either
parses into a `GraphSchema` or raises a parse/validation error (modelled as
`Except`); `dump` is `str(pruned_schema.model_dump())`; `gen` is the
`text2cypher` call on the (pruned) schema string.  The code has no exception
handler: a pruning parse failure propagates to the caller. -/
def getCypherQuery (retrieve : String → List DspyExample)
    (prune : String → String → Except String GraphSchema)
    (dump : GraphSchema → String) (gen : String → String → Query)
    (question inputSchema : String) : Except String Query :=
  let _retrievedExamples := retrieve question
  match prune question inputSchema with
  | .error e => .error e
  | .ok pruned => .ok (gen question (dump pruned))

/-- Embedding of `GraphRAG.run_query` (workflow.py, lines 279-301).
`getQ` is the (cached) `get_cypher_query` result's `.query` field; `execute`
is `db_manager.conn.execute` on the final query, whose `RuntimeError` failure
channel is the `Except` error (only `RuntimeError` is caught by the code).
On success the result rows are flattened (`[item for row in result for item
in row]`); on `RuntimeError` the context is `None`. -/
def runQuery {α : Type} (explain : Nat → String → Option String)
    (gen : Nat → String → String → String) (getQ : String → String → String)
    (execute : String → Except String (List (List α)))
    (question inputSchema : String) : String × Option (List α) :=
  let finalQuery := (validateAndRepairQuery explain gen (getQ question inputSchema)).1
  match execute finalQuery with
  | .ok rows => (finalQuery, some (rows.flatMap id))
  | .error _ => (finalQuery, none)

/-- The value returned by `GraphRAG.forward` (workflow.py, lines 303-317):
either the empty dict `{}` (when the execution context is `None`) or the
`{"question", "query", "answer"}` dict. -/
inductive ForwardResponse
  | empty
  | full (question : String) (query : String) (answer : String)
deriving DecidableEq

/-- Embedding of `GraphRAG.forward` (workflow.py, lines 303-317).
`answerGen` is the `generate_answer` ChainOfThought oracle, taking the
question, the final query and the (flattened) context rows. -/
def forward {α : Type} (explain : Nat → String → Option String)
    (gen : Nat → String → String → String) (getQ : String → String → String)
    (execute : String → Except String (List (List α)))
    (answerGen : String → String → List α → String)
    (question inputSchema : String) : ForwardResponse :=
  match runQuery explain gen getQ execute question inputSchema with
  | (_, none) => .empty
  | (fq, some rows) => .full question fq (answerGen question fq rows)

/-- State of a `functools.lru_cache`: entries ordered most-recently-used
first, plus the number of actual executions of the wrapped function so far. -/
structure LruState (κ ν : Type) where
  entries : List (κ × ν)
  execCount : Nat

/-- One `lru_cache(maxsize)` call: on a hit the cached value is returned and
the entry moves to the most-recently-used position; on a miss the wrapped
function is executed (execution number `execCount`), the result is cached,
and the least-recently-used entry is evicted when the cache exceeds its
capacity. -/
def lruStep {κ ν : Type} [DecidableEq κ] (maxsize : Nat)
    (compute : Nat → κ → ν) (st : LruState κ ν) (key : κ) : ν × LruState κ ν :=
  match st.entries.find? (fun e => decide (e.1 = key)) with
  | some e =>
    (e.2, ⟨e :: st.entries.eraseP (fun x => decide (x.1 = key)), st.execCount⟩)
  | none =>
    let v := compute st.execCount key
    let es := (key, v) :: st.entries
    (v, ⟨if maxsize < es.length then es.dropLast else es, st.execCount + 1⟩)

/-- Run a trace of calls through an `lru_cache`. -/
def lruRun {κ ν : Type} [DecidableEq κ] (maxsize : Nat) (compute : Nat → κ → ν) :
    List κ → LruState κ ν → List ν × LruState κ ν
  | [], st => ([], st)
  | k :: ks, st =>
    let s1 := lruStep maxsize compute st k
    let r := lruRun maxsize compute ks s1.2
    (s1.1 :: r.1, r.2)

/-- Embedding of the `@lru_cache(maxsize=128)` decoration of
`GraphRAG.get_cypher_query` (workflow.py, line 264) for one `GraphRAG`
instance in one process: a trace of calls keyed by `(question, input_schema)`
runs against an initially empty cache.  `compute n key` is the `n`-th actual
execution of the function body (exemplar retrieval, schema pruning, query
generation) — indexed by `n` because the generation service is
nondeterministic, so distinct executions of the body may return different
`Query` values even for the same key. -/
def getCypherQueryCachedRun (compute : Nat → String × String → Query)
    (calls : List (String × String)) : List Query :=
  (lruRun 128 compute calls ⟨[], 0⟩).1

/-- Number of distinct keys in `calls` that are not already in `seen`:
the number of actual executions an unbounded memo table would perform. -/
def newKeys {κ : Type} [DecidableEq κ] : List κ → List κ → Nat
  | [], _ => 0
  | k :: ks, seen => if k ∈ seen then newKeys ks seen else newKeys ks (k :: seen) + 1

/-- Lookup of a key's cached value in an association table. -/
def lookupVal {κ ν : Type} [DecidableEq κ] (tbl : List (κ × ν)) (k : κ) : Option ν :=
  (tbl.find? (fun e => decide (e.1 = k))).map Prod.snd

/-- An unbounded (never-evicting) memo table, the ideal semantics that
`lru_cache` implements as long as no eviction occurs.  Returns the results,
the final table and the final execution count. -/
def memoRun {κ ν : Type} [DecidableEq κ] (compute : Nat → κ → ν) :
    List κ → List (κ × ν) → Nat → List ν × List (κ × ν) × Nat
  | [], tbl, n => ([], tbl, n)
  | k :: ks, tbl, n =>
    match tbl.find? (fun e => decide (e.1 = k)) with
    | some e =>
      let r := memoRun compute ks tbl n
      (e.2 :: r.1, r.2)
    | none =>
      let v := compute n k
      let r := memoRun compute ks ((k, v) :: tbl) (n + 1)
      (v :: r.1, r.2)

/-- The 130-call trace used to exhibit an eviction: key `("q0", "s")`, then
128 further distinct keys (filling the 128-slot cache and evicting
`("q0", "s")`), then `("q0", "s")` again. -/
def lruOverflowCalls : List (String × String) :=
  ("q0", "s") :: ((List.range 128).map fun i => ("q" ++ Nat.repr (i + 1), "s")) ++ [("q0", "s")]

/-- C2: for every initial candidate query and every behaviour of the graph
engine's explain check and of the repair generator, `_validate_and_repair_query`
issues at most `maxRetries` repair generation requests (and, being a total
function of its oracles, always terminates). -/
theorem validate_repair_bounded (explain : Nat → String → Option String)
    (gen : Nat → String → String → String) (i m : Nat) (q : String) :
    (validateAndRepairAux explain gen i m q).2 ≤ m := by
  induction m generalizing i q with
  | zero => simp [validateAndRepairAux]
  | succ r ih =>
    simp only [validateAndRepairAux]
    cases h : explain i ("EXPLAIN " ++ q) with
    | none => simp
    | some e =>
      simpa using Nat.succ_le_succ (ih (i + 1) _)

/-- C1 (counterexample): with an engine whose explain check never raises, the
loop does not return the query unchanged: `_post_process_query` is applied to
it, rewriting the `a.name CONTAINS 'Bob'` comparison. -/
theorem validate_repair_valid_not_unchanged :
    (validateAndRepairQuery (fun _ _ => none) (fun _ _ _ => "")
        "MATCH (a) WHERE a.name CONTAINS \x27Bob\x27 RETURN a.name").1
      ≠ "MATCH (a) WHERE a.name CONTAINS \x27Bob\x27 RETURN a.name" := by
  decide

/-- C1 (amended): if the explain check raises no error on the initial query,
`_validate_and_repair_query` issues no repair generation request and returns
`_post_process_query(query)` (which equals `query` whenever the post-processing
rewrite finds nothing). -/
theorem validate_repair_valid_first (explain : Nat → String → Option String)
    (gen : Nat → String → String → String) (q : String) (m : Nat)
    (hm : 0 < m) (h : explain 0 ("EXPLAIN " ++ q) = none) :
    validateAndRepairQuery explain gen q m = (postProcessQuery q, 0) := by
  cases m with
  | zero => exact absurd hm (lt_irrefl 0)
  | succ r => simp [validateAndRepairQuery, validateAndRepairAux, h]

/-- Witness for C1 (amended): the spec's example query is returned unchanged
with 0 repair attempts. -/
theorem validate_repair_valid_first_witness :
    validateAndRepairQuery (fun _ _ => none) (fun _ _ _ => "")
      "MATCH (s:Scholar) RETURN count(s)" 2
      = ("MATCH (s:Scholar) RETURN count(s)", 0) :=
  (validate_repair_valid_first (fun _ _ => none) (fun _ _ _ => "")
    "MATCH (s:Scholar) RETURN count(s)" 2 (by decide) rfl).trans (by decide)

/-- C3 (counterexample): when explain raises on every attempt, the loop does
not return the last candidate produced by the repair generation step: it
returns its `_post_process_query` rewrite, which differs here. -/
theorem validate_repair_exhaust_not_raw :
    (validateAndRepairQuery (fun _ _ => some "err")
        (fun _ _ _ => "MATCH (x) WHERE x.name CONTAINS \x27B\x27 RETURN x") "Q0").1
      ≠ "MATCH (x) WHERE x.name CONTAINS \x27B\x27 RETURN x" := by
  decide

/-- C3 (amended): if the explain check raises on every attempt (error message
`errf i s` on attempt `i`), the loop returns normally — the engine's error is
absorbed, never propagated — with exactly `m` repair attempts, and its result
is the post-processed last candidate produced by chaining the repair
generations. -/
theorem validate_repair_exhaust (errf : Nat → String → String)
    (gen : Nat → String → String → String) (i m : Nat) (q : String) :
    validateAndRepairAux (fun j s => some (errf j s)) gen i m q
      = (postProcessQuery (repairChain errf gen i m q), m) := by
  induction m generalizing i q with
  | zero => simp [validateAndRepairAux, repairChain]
  | succ r ih =>
    simp only [validateAndRepairAux, repairChain]
    rw [ih (i + 1) _]

/-- C4: `_post_process_query` is not idempotent: on this query the second
application rewrites a pattern fabricated (inside a string literal) by the
first application. -/
theorem post_process_not_idempotent :
    postProcessQuery (postProcessQuery
        "a.name CONTAINS \x27P.NAME CONTAINS\x27 AND b.name CONTAINS \x27QQ\x27")
      ≠ postProcessQuery
        "a.name CONTAINS \x27P.NAME CONTAINS\x27 AND b.name CONTAINS \x27QQ\x27" := by
  decide

/-- C9 (counterexample): when the schema-pruning generation call fails to
parse into a `GraphSchema`, `get_cypher_query` does not fall back to the
unpruned schema (which, with this query generator, would produce
`.ok ⟨"full schema"⟩`): the failure propagates to the caller. -/
theorem get_cypher_query_no_fallback :
    getCypherQuery (fun _ => []) (fun _ _ => .error "ValidationError")
      (fun _ => "") (fun _ s => ⟨s⟩) "Which scholars won prizes?" "full schema"
      = .error "ValidationError" := by
  rfl

/-- C9 (amended): if the structure returned by the schema-pruning generation
call fails to parse into valid Node/Edge/Property records, `get_cypher_query`
raises that error to its caller: there is no `SchemaPruneError` wrapper and no
fallback to the full, unpruned schema, and no query is generated. -/
theorem get_cypher_query_prune_error (retrieve : String → List DspyExample)
    (prune : String → String → Except String GraphSchema)
    (dump : GraphSchema → String) (gen : String → String → Query)
    (question inputSchema e : String)
    (h : prune question inputSchema = .error e) :
    getCypherQuery retrieve prune dump gen question inputSchema = .error e := by
  simp [getCypherQuery, h]

/-- Witness for C9 (amended). -/
theorem get_cypher_query_prune_error_witness :
    getCypherQuery (fun _ => []) (fun _ _ => .error "ValidationError")
      (fun _ => "") (fun _ s => ⟨s⟩) "q" "s" = .error "ValidationError" :=
  get_cypher_query_prune_error (fun _ => []) (fun _ _ => .error "ValidationError")
    (fun _ => "") (fun _ s => ⟨s⟩) "q" "s" "ValidationError" rfl

/-- C8 (counterexample): when executing the final query raises a
`RuntimeError`, `forward` returns the empty dict `{}` — not a response whose
result rows are `None` and whose answer text states insufficient information
(the answer-synthesis step is never invoked). -/
theorem forward_exec_error_empty :
    forward (α := Nat) (fun _ _ => none) (fun _ _ _ => "")
      (fun _ _ => "MATCH (s:Scholar) RETURN count(s)")
      (fun _ => .error "RuntimeError: Binder exception")
      (fun _ _ _ => "There are 25 scholars.")
      "How many scholars are there?" "schema"
      = ForwardResponse.empty := by
  decide

/-- C8 (amended): whenever executing the final (validated, post-processed)
query fails with a `RuntimeError`, `forward` absorbs the error (the exception
is caught in `run_query`) and returns the empty dict `{}`; no answer is
synthesized. -/
theorem forward_exec_error (α : Type) (explain : Nat → String → Option String)
    (gen : Nat → String → String → String) (getQ : String → String → String)
    (execute : String → Except String (List (List α)))
    (answerGen : String → String → List α → String)
    (question inputSchema e : String)
    (h : execute ((validateAndRepairQuery explain gen
        (getQ question inputSchema)).1) = .error e) :
    forward explain gen getQ execute answerGen question inputSchema
      = ForwardResponse.empty := by
  simp [forward, runQuery, h]

/-- Witness for C8 (amended). -/
theorem forward_exec_error_witness :
    forward (α := Nat) (fun _ _ => none) (fun _ _ _ => "")
      (fun _ _ => "MATCH (s:Scholar) RETURN count(s)")
      (fun _ => .error "RuntimeError") (fun _ _ _ => "ans") "q" "s"
      = ForwardResponse.empty :=
  forward_exec_error Nat (fun _ _ => none) (fun _ _ _ => "")
    (fun _ _ => "MATCH (s:Scholar) RETURN count(s)")
    (fun _ => .error "RuntimeError") (fun _ _ _ => "ans") "q" "s" "RuntimeError" rfl

/-- C6: with a corpus of size ≥ k (and one similarity score per corpus
entry), `_get_retrieved_examples` returns exactly `k` exemplars, drawn from
pairwise-distinct corpus positions that all lie inside the corpus, ordered by
non-increasing similarity score. -/
theorem retrieve_top_k (trainset : List DspyExample) (scores : List ℚ) (k : Nat)
    (hlen : scores.length = trainset.length) (hk : k ≤ trainset.length) :
    (getRetrievedExamples trainset scores k).length = k
    ∧ ((semanticSearch scores k).map Prod.fst).Nodup
    ∧ ((semanticSearch scores k).all fun h => h.1 < trainset.length) = true
    ∧ ((semanticSearch scores k).map Prod.snd).Sorted (fun a b => b ≤ a)
    ∧ getRetrievedExamples trainset scores k
        = (semanticSearch scores k).map fun h => trainset.getD h.1 ⟨"", ""⟩ := by
  refine ⟨?_, ?_, ?_, ?_, rfl⟩
  · simp only [getRetrievedExamples, semanticSearch, List.length_map,
      List.length_take, List.length_insertionSort, List.enum_length, hlen]
    omega
  · have hperm : List.Perm
        ((List.insertionSort hitOrder scores.enum).map Prod.fst)
        (scores.enum.map Prod.fst) :=
      (List.perm_insertionSort hitOrder scores.enum).map Prod.fst
    have hnodup : ((List.insertionSort hitOrder scores.enum).map Prod.fst).Nodup :=
      hperm.nodup_iff.mpr (List.nodup_enum_map_fst scores)
    exact List.Nodup.sublist ((List.take_sublist _ _).map _) hnodup
  · simp only [List.all_eq_true, decide_eq_true_eq]
    intro h hmem
    have hmem2 : h ∈ scores.enum :=
      (List.mem_insertionSort hitOrder).mp (List.mem_of_mem_take hmem)
    have := (List.mem_enum_iff_getElem? ).mp hmem2
    have hlt : h.1 < scores.length := (List.getElem?_eq_some.mp this).1
    omega
  · have hs : List.Sorted hitOrder (List.insertionSort hitOrder scores.enum) :=
      List.sorted_insertionSort hitOrder scores.enum
    have hs2 : List.Sorted hitOrder (semanticSearch scores k) :=
      List.Pairwise.sublist (List.take_sublist _ _) hs
    exact hs2.map _ (fun a b hab => by
      rcases hab with h | ⟨h, _⟩
      · exact le_of_lt h
      · exact le_of_eq h.symm)

/-- Witness for C6 at a concrete 3-exemplar corpus with k = 2. -/
theorem retrieve_top_k_witness :
    (getRetrievedExamples [⟨"qa", "ca"⟩, ⟨"qb", "cb"⟩, ⟨"qc", "cc"⟩]
        [(1 : ℚ)/2, 3/4, 1/4] 2).length = 2
    ∧ ((semanticSearch [(1 : ℚ)/2, 3/4, 1/4] 2).map Prod.fst).Nodup
    ∧ ((semanticSearch [(1 : ℚ)/2, 3/4, 1/4] 2).all fun h =>
        h.1 < ([⟨"qa", "ca"⟩, ⟨"qb", "cb"⟩, ⟨"qc", "cc"⟩] : List DspyExample).length) = true
    ∧ ((semanticSearch [(1 : ℚ)/2, 3/4, 1/4] 2).map Prod.snd).Sorted (fun a b => b ≤ a)
    ∧ getRetrievedExamples [⟨"qa", "ca"⟩, ⟨"qb", "cb"⟩, ⟨"qc", "cc"⟩]
        [(1 : ℚ)/2, 3/4, 1/4] 2
        = (semanticSearch [(1 : ℚ)/2, 3/4, 1/4] 2).map fun h =>
            ([⟨"qa", "ca"⟩, ⟨"qb", "cb"⟩, ⟨"qc", "cc"⟩] : List DspyExample).getD h.1 ⟨"", ""⟩ :=
  retrieve_top_k _ _ 2 rfl (by decide)

/-- C7 (counterexample): with a corpus of size 1 and the configured k = 2,
retrieval does not fail with any `InsufficientExemplars` error (no such error
exists anywhere in the repository): it returns the single available exemplar,
i.e. fewer than k. -/
theorem retrieve_small_corpus_no_error :
    getRetrievedExamples [⟨"q0", "c0"⟩] [(1 : ℚ)/2] 2 = [⟨"q0", "c0"⟩] := by
  decide

/-- C7 (amended): when the corpus is smaller than k, retrieval raises no
error and simply returns all `corpus size` exemplars; in general it returns
`min k (corpus size)` exemplars. -/
theorem retrieve_length_min (trainset : List DspyExample) (scores : List ℚ)
    (k : Nat) (hlen : scores.length = trainset.length) :
    (getRetrievedExamples trainset scores k).length = min k trainset.length := by
  simp [getRetrievedExamples, semanticSearch, List.length_take,
    List.length_insertionSort, List.enum_length, hlen]

/-- Witness for C7 (amended) at a corpus of size 1 with k = 2. -/
theorem retrieve_length_min_witness :
    (getRetrievedExamples [⟨"q0", "c0"⟩] [(1 : ℚ)/2] 2).length
      = min 2 ([⟨"q0", "c0"⟩] : List DspyExample).length :=
  retrieve_length_min _ _ 2 rfl

/-- In a table whose keys are duplicate-free, `find?` by key is invariant
under permutation. -/
lemma find?_eq_of_perm {κ ν : Type} [DecidableEq κ] {l1 l2 : List (κ × ν)}
    (h : List.Perm l1 l2) (hnd : (l2.map Prod.fst).Nodup) (k : κ) :
    l1.find? (fun e => decide (e.1 = k)) = l2.find? (fun e => decide (e.1 = k)) := by
  cases h2 : l2.find? (fun e => decide (e.1 = k)) with
  | none =>
    rw [List.find?_eq_none] at h2 ⊢
    exact fun x hx => h2 x (h.mem_iff.mp hx)
  | some e =>
    cases h1 : l1.find? (fun e => decide (e.1 = k)) with
    | none =>
      rw [List.find?_eq_none] at h1
      exact absurd (List.find?_some h2)
        (h1 e (h.mem_iff.mpr (List.mem_of_find?_eq_some h2)))
    | some e1 =>
      have he : e ∈ l2 := List.mem_of_find?_eq_some h2
      have he1 : e1 ∈ l2 := h.mem_iff.mp (List.mem_of_find?_eq_some h1)
      have hk : e.1 = k := by simpa using List.find?_some h2
      have hk1 : e1.1 = k := by simpa using List.find?_some h1
      rw [List.inj_on_of_nodup_map hnd he1 he (hk1.trans hk.symm)]

/-- Moving the entry located by `find?` to the front is a permutation. -/
lemma cons_eraseP_of_find? {α : Type} {p : α → Bool} {e : α} :
    ∀ {l : List α}, l.find? p = some e → List.Perm (e :: l.eraseP p) l := by
  intro l
  induction l with
  | nil => intro h; simp at h
  | cons x xs ih =>
    intro h
    by_cases hx : p x
    · rw [List.find?_cons_of_pos _ hx] at h
      cases h
      simp [List.eraseP_cons, hx]
    · rw [List.find?_cons_of_neg _ hx] at h
      have hep : List.eraseP p (x :: xs) = x :: xs.eraseP p := by
        simp [List.eraseP_cons, hx]
      rw [hep]
      exact (List.Perm.swap x e _).trans ((ih h).cons x)

/-- Characterization of the unbounded memo table: the final table extends the
initial one with fresh keys only, stays duplicate-free, the execution count
grows by the number of distinct new keys, and every result is the final
table's value for its call's key. -/
lemma memoRun_spec {κ ν : Type} [DecidableEq κ] (compute : Nat → κ → ν) :
    ∀ (calls : List κ) (tbl : List (κ × ν)) (n : Nat),
      (tbl.map Prod.fst).Nodup →
      ∃ ext : List (κ × ν),
        (memoRun compute calls tbl n).2.1 = ext ++ tbl
        ∧ (∀ e ∈ ext, e.1 ∉ tbl.map Prod.fst)
        ∧ (((memoRun compute calls tbl n).2.1).map Prod.fst).Nodup
        ∧ (memoRun compute calls tbl n).2.2 = n + newKeys calls (tbl.map Prod.fst)
        ∧ List.Forall₂
            (fun k v => lookupVal (memoRun compute calls tbl n).2.1 k = some v)
            calls (memoRun compute calls tbl n).1 := by
  intro calls
  induction calls with
  | nil =>
    intro tbl n hnd
    exact ⟨[], by simp [memoRun], by simp, by simpa [memoRun] using hnd,
      by simp [memoRun, newKeys], by simp [memoRun]⟩
  | cons k ks ih =>
    intro tbl n hnd
    cases hf : tbl.find? (fun e => decide (e.1 = k)) with
    | some e =>
      have hred : memoRun compute (k :: ks) tbl n
          = (e.2 :: (memoRun compute ks tbl n).1, (memoRun compute ks tbl n).2) := by
        simp [memoRun, hf]
      have hkm : k ∈ tbl.map Prod.fst := by
        have he : e ∈ tbl := List.mem_of_find?_eq_some hf
        have he1 : e.1 = k := by simpa using List.find?_some hf
        exact he1 ▸ List.mem_map_of_mem Prod.fst he
      obtain ⟨ext, hext, hdisj, hndf, hcnt, hfa⟩ := ih tbl n hnd
      rw [hred]
      refine ⟨ext, hext, hdisj, hndf, ?_, ?_⟩
      · rw [hcnt, newKeys, if_pos hkm]
      · refine List.Forall₂.cons ?_ hfa
        have hextnone : ext.find? (fun e => decide (e.1 = k)) = none := by
          rw [List.find?_eq_none]
          intro x hx
          simp only [decide_eq_true_eq]
          intro hxk
          exact hdisj x hx (hxk.symm ▸ hkm)
        rw [hext]
        unfold lookupVal
        rw [List.find?_append, hextnone, Option.none_or, hf]
        rfl
    | none =>
      have hred : memoRun compute (k :: ks) tbl n
          = (compute n k :: (memoRun compute ks ((k, compute n k) :: tbl) (n + 1)).1,
             (memoRun compute ks ((k, compute n k) :: tbl) (n + 1)).2) := by
        simp [memoRun, hf]
      have hknot : k ∉ tbl.map Prod.fst := by
        rw [List.find?_eq_none] at hf
        intro hm
        obtain ⟨e, he, hek⟩ := List.mem_map.mp hm
        exact hf e he (by simpa using hek)
      have hnd2 : (((k, compute n k) :: tbl).map Prod.fst).Nodup := by
        rw [List.map_cons]
        exact List.nodup_cons.mpr ⟨hknot, hnd⟩
      obtain ⟨ext, hext, hdisj, hndf, hcnt, hfa⟩ :=
        ih ((k, compute n k) :: tbl) (n + 1) hnd2
      rw [hred]
      refine ⟨ext ++ [(k, compute n k)], ?_, ?_, hndf, ?_, ?_⟩
      · rw [hext, List.append_assoc]
        rfl
      · intro e he
        rcases List.mem_append.mp he with hme | hme
        · have hd := hdisj e hme
          simp only [List.map_cons] at hd
          exact fun hm => hd (List.mem_cons_of_mem _ hm)
        · have heq : e = (k, compute n k) := by simpa using hme
          rw [heq]
          exact hknot
      · rw [hcnt, newKeys, if_neg hknot]
        simp only [List.map_cons]
        omega
      · refine List.Forall₂.cons ?_ hfa
        have hextnone : ext.find? (fun e => decide (e.1 = k)) = none := by
          rw [List.find?_eq_none]
          intro x hx
          have hd := hdisj x hx
          simp only [List.map_cons] at hd
          simp only [decide_eq_true_eq]
          intro hxk
          exact hd (hxk.symm ▸ List.mem_cons_self k _)
        rw [hext]
        unfold lookupVal
        rw [List.find?_append, hextnone, Option.none_or,
          List.find?_cons_of_pos _ (by simp)]
        rfl

/-- Refinement: as long as the number of live distinct keys stays within
`maxsize` (so that no eviction ever occurs), `lru_cache` behaves exactly like
the unbounded memo table: same results, same execution count. -/
lemma lruRun_eq_memoRun {κ ν : Type} [DecidableEq κ] (maxsize : Nat)
    (compute : Nat → κ → ν) :
    ∀ (calls : List κ) (st : LruState κ ν) (tbl : List (κ × ν)),
      List.Perm st.entries tbl → (tbl.map Prod.fst).Nodup →
      tbl.length + newKeys calls (tbl.map Prod.fst) ≤ maxsize →
      (lruRun maxsize compute calls st).1 = (memoRun compute calls tbl st.execCount).1
      ∧ (lruRun maxsize compute calls st).2.execCount
          = (memoRun compute calls tbl st.execCount).2.2 := by
  intro calls
  induction calls with
  | nil => intro st tbl _ _ _; exact ⟨rfl, rfl⟩
  | cons k ks ih =>
    intro st tbl hperm hnd hcap
    have hfind : st.entries.find? (fun e => decide (e.1 = k))
        = tbl.find? (fun e => decide (e.1 = k)) := find?_eq_of_perm hperm hnd k
    cases hf : tbl.find? (fun e => decide (e.1 = k)) with
    | some e =>
      have hstep : lruStep maxsize compute st k
          = (e.2, ⟨e :: st.entries.eraseP (fun x => decide (x.1 = k)), st.execCount⟩) := by
        rw [lruStep, hfind, hf]
      have hmred : memoRun compute (k :: ks) tbl st.execCount
          = (e.2 :: (memoRun compute ks tbl st.execCount).1,
             (memoRun compute ks tbl st.execCount).2) := by
        simp [memoRun, hf]
      have hkm : k ∈ tbl.map Prod.fst := by
        have he : e ∈ tbl := List.mem_of_find?_eq_some hf
        have he1 : e.1 = k := by simpa using List.find?_some hf
        exact he1 ▸ List.mem_map_of_mem Prod.fst he
      have hperm2 : List.Perm (e :: st.entries.eraseP (fun x => decide (x.1 = k))) tbl :=
        (cons_eraseP_of_find? (hfind.trans hf)).trans hperm
      have hcap2 : tbl.length + newKeys ks (tbl.map Prod.fst) ≤ maxsize := by
        rw [newKeys, if_pos hkm] at hcap
        exact hcap
      obtain ⟨hres, hcnt⟩ :=
        ih ⟨e :: st.entries.eraseP (fun x => decide (x.1 = k)), st.execCount⟩
          tbl hperm2 hnd hcap2
      rw [hmred]
      constructor
      · show (lruRun maxsize compute (k :: ks) st).1 = _
        rw [lruRun, hstep]
        exact congrArg (e.2 :: ·) hres
      · show (lruRun maxsize compute (k :: ks) st).2.execCount = _
        rw [lruRun, hstep]
        exact hcnt
    | none =>
      have hknot : k ∉ tbl.map Prod.fst := by
        rw [List.find?_eq_none] at hf
        intro hm
        obtain ⟨e, he, hek⟩ := List.mem_map.mp hm
        exact hf e he (by simpa using hek)
      have hcap2 : tbl.length + (newKeys ks (k :: tbl.map Prod.fst) + 1) ≤ maxsize := by
        rw [newKeys, if_neg hknot] at hcap
        exact hcap
      have hnoevict : ¬ maxsize < st.entries.length + 1 := by
        have := hperm.length_eq
        omega
      have hstep : lruStep maxsize compute st k
          = (compute st.execCount k,
             ⟨(k, compute st.execCount k) :: st.entries, st.execCount + 1⟩) := by
        rw [lruStep, hfind, hf]
        simp [hnoevict]
      have hmred : memoRun compute (k :: ks) tbl st.execCount
          = (compute st.execCount k
              :: (memoRun compute ks ((k, compute st.execCount k) :: tbl)
                    (st.execCount + 1)).1,
             (memoRun compute ks ((k, compute st.execCount k) :: tbl)
                (st.execCount + 1)).2) := by
        simp [memoRun, hf]
      have hnd2 : ((((k, compute st.execCount k) :: tbl)).map Prod.fst).Nodup := by
        rw [List.map_cons]
        exact List.nodup_cons.mpr ⟨hknot, hnd⟩
      have hcap3 : ((k, compute st.execCount k) :: tbl).length
          + newKeys ks (((k, compute st.execCount k) :: tbl).map Prod.fst) ≤ maxsize := by
        simp only [List.map_cons, List.length_cons]
        omega
      obtain ⟨hres, hcnt⟩ :=
        ih ⟨(k, compute st.execCount k) :: st.entries, st.execCount + 1⟩
          ((k, compute st.execCount k) :: tbl) (hperm.cons _) hnd2 hcap3
      rw [hmred]
      constructor
      · show (lruRun maxsize compute (k :: ks) st).1 = _
        rw [lruRun, hstep]
        exact congrArg (compute st.execCount k :: ·) hres
      · show (lruRun maxsize compute (k :: ks) st).2.execCount = _
        rw [lruRun, hstep]
        exact hcnt

set_option maxRecDepth 8000

/-- C10 (counterexample): the trace `lruOverflowCalls` calls
`get_cypher_query` on the same key `("q0", "s")` first and last, with 128
other distinct keys in between; the 129th distinct key evicts `("q0", "s")`
from the 128-slot cache, so the two equal-argument calls re-execute the body
and (with a nondeterministic generation service, modelled as returning the
execution number) return different `Query` results. -/
theorem get_cypher_query_cached_unstable :
    lruOverflowCalls.head? = some ("q0", "s")
    ∧ lruOverflowCalls.getLast? = some ("q0", "s")
    ∧ (getCypherQueryCachedRun (fun n _ => ⟨Nat.repr n⟩) lruOverflowCalls).head?
        ≠ (getCypherQueryCachedRun (fun n _ => ⟨Nat.repr n⟩) lruOverflowCalls).getLast? := by
  exact ⟨by decide, by decide, by decide⟩

/-- C10 (amended): for one `GraphRAG` instance, as long as at most 128
distinct (question, input_schema) pairs occur in the trace — so the LRU cache
never evicts — any two calls with equal arguments return the identical cached
`Query`, and the underlying steps (exemplar retrieval, schema pruning, query
generation) execute exactly once per distinct pair. -/
theorem get_cypher_query_cached_stable (compute : Nat → String × String → Query)
    (calls : List (String × String)) (i j : Nat)
    (hcap : newKeys calls [] ≤ 128)
    (hi : i < calls.length) (hj : j < calls.length)
    (hkey : calls.getD i ("", "") = calls.getD j ("", "")) :
    (getCypherQueryCachedRun compute calls).getD i ⟨""⟩
      = (getCypherQueryCachedRun compute calls).getD j ⟨""⟩
    ∧ (lruRun 128 compute calls
        (⟨[], 0⟩ : LruState (String × String) Query)).2.execCount
        = newKeys calls [] := by
  obtain ⟨hres, hcnt⟩ := lruRun_eq_memoRun 128 compute calls ⟨[], 0⟩ []
    (List.Perm.refl _) (by simp) (by simpa using hcap)
  obtain ⟨ext, _, _, _, hcount, hfa⟩ := memoRun_spec compute calls [] 0 (by simp)
  refine ⟨?_, hcnt.trans (by simpa using hcount)⟩
  have hresall : getCypherQueryCachedRun compute calls
      = (memoRun compute calls [] 0).1 := hres
  have hlen2 : (memoRun compute calls [] 0).1.length = calls.length :=
    hfa.length_eq.symm
  have hi2 : i < (memoRun compute calls [] 0).1.length := by rw [hlen2]; exact hi
  have hj2 : j < (memoRun compute calls [] 0).1.length := by rw [hlen2]; exact hj
  have hgi := hfa.get hi hi2
  have hgj := hfa.get hj hj2
  rw [hresall, List.getD_eq_get _ _ hi2, List.getD_eq_get _ _ hj2]
  have hkey2 : calls.get ⟨i, hi⟩ = calls.get ⟨j, hj⟩ := by
    rwa [List.getD_eq_get _ _ hi, List.getD_eq_get _ _ hj] at hkey
  rw [hkey2] at hgi
  exact Option.some_injective _ (hgi.symm.trans hgj)

/-- Witness for C10 (amended): a 3-call trace with the first and third calls
sharing their key returns the same cached `Query` for both, with 2 underlying
executions for the 2 distinct keys. -/
theorem get_cypher_query_cached_stable_witness :
    (getCypherQueryCachedRun (fun n _ => ⟨Nat.repr n⟩)
        [("q1", "s"), ("q2", "s"), ("q1", "s")]).getD 0 ⟨""⟩
      = (getCypherQueryCachedRun (fun n _ => ⟨Nat.repr n⟩)
        [("q1", "s"), ("q2", "s"), ("q1", "s")]).getD 2 ⟨""⟩
    ∧ (lruRun 128 (fun n _ => ⟨Nat.repr n⟩)
        [("q1", "s"), ("q2", "s"), ("q1", "s")]
        (⟨[], 0⟩ : LruState (String × String) Query)).2.execCount
        = newKeys [("q1", "s"), ("q2", "s"), ("q1", "s")] [] :=
  get_cypher_query_cached_stable (fun n _ => ⟨Nat.repr n⟩)
    [("q1", "s"), ("q2", "s"), ("q1", "s")] 0 2
    (by decide) (by decide) (by decide) (by decide)

/-- `takeWhile`/`dropWhile` on a block of satisfying characters followed by a
failing character. -/
lemma span_append {p : Char → Bool} : ∀ {w : List Char} {c : Char} {t : List Char},
    (∀ x ∈ w, p x = true) → p c = false →
    (w ++ c :: t).takeWhile p = w ∧ (w ++ c :: t).dropWhile p = c :: t := by
  intro w
  induction w with
  | nil =>
    intro c t _ hc
    simp [List.takeWhile_cons, List.dropWhile_cons, hc]
  | cons a as ih =>
    intro c t hw hc
    have ha : p a = true := hw a (List.mem_cons_self _ _)
    obtain ⟨h1, h2⟩ := ih (fun x hx => hw x (List.mem_cons_of_mem _ hx)) hc
    constructor
    · simp only [List.cons_append, List.takeWhile_cons, ha, if_true]
      rw [h1]
    · simp only [List.cons_append, List.dropWhile_cons, ha, if_true]
      rw [h2]

lemma subFuel_nil : ∀ n, subFuel n [] = [] := by
  intro n
  cases n <;> rfl

/-- If the pattern matches at no suffix, the substitution is the identity
(for any fuel). -/
lemma subFuel_no_match : ∀ {l : List Char},
    (∀ s, s <:+ l → matchAt s = none) → ∀ n, subFuel n l = l := by
  intro l
  induction l with
  | nil => intro _ n; exact subFuel_nil n
  | cons c cs ih =>
    intro h n
    cases n with
    | zero => rfl
    | succ m =>
      have hm := h (c :: cs) (List.suffix_refl _)
      rw [subFuel, hm]
      rw [ih (fun s hs => h s (hs.trans (List.suffix_cons c cs))) m]

/-- No match starts where no word character does. -/
lemma matchAt_none_of_span_nil {l : List Char}
    (h : l.takeWhile isWordChar = []) : matchAt l = none := by
  simp [matchAt, h]

/-- No match starts where the word run is followed by a non-dot. -/
lemma matchAt_none_of_span_nondot {l : List Char} {c : Char} {t : List Char}
    (h2 : l.dropWhile isWordChar = c :: t) (hcdot : c ≠ '.') :
    matchAt l = none := by
  simp only [matchAt]
  by_cases he : (l.takeWhile isWordChar).isEmpty = true
  · rw [if_pos he]
  · rw [if_neg he, h2]
    split
    · next r2 heq =>
      exact absurd (by injection heq) hcdot
    · rfl

/-- A word-character run followed by a character that is neither a word
character nor a dot can start no match. -/
lemma matchAt_none_word_nondot {w : List Char} {c : Char} (t : List Char)
    (hw : ∀ x ∈ w, isWordChar x = true) (hc : isWordChar c = false)
    (hcdot : c ≠ '.') :
    matchAt (w ++ c :: t) = none := by
  obtain ⟨h1, h2⟩ := span_append (w := w) (c := c) (t := t) hw hc
  exact matchAt_none_of_span_nondot h2 hcdot

/-- No match starts at a non-word character. -/
lemma matchAt_none_head {c : Char} (t : List Char) (hc : isWordChar c = false) :
    matchAt (c :: t) = none :=
  matchAt_none_of_span_nil (by simp [List.takeWhile_cons, hc])

/-- `<word>.name)` can start no match: no whitespace-then-CONTAINS follows
`.name`. -/
lemma matchAt_none_name_rparen {w : List Char} (t : List Char)
    (hw : ∀ x ∈ w, isWordChar x = true) :
    matchAt (w ++ '.' :: 'n' :: 'a' :: 'm' :: 'e' :: ')' :: t) = none := by
  obtain ⟨h1, h2⟩ := span_append (w := w) (c := '.') hw (by decide)
  simp only [matchAt]
  by_cases he : ((w ++ '.' :: 'n' :: 'a' :: 'm' :: 'e' :: ')' :: t).takeWhile
      isWordChar).isEmpty = true
  · rw [if_pos he]
  · rw [if_neg he, h2]
    rfl

/-- `<word>.name = ` can start no match: `=` is not CONTAINS. -/
lemma matchAt_none_name_eq {w : List Char} (t : List Char)
    (hw : ∀ x ∈ w, isWordChar x = true) :
    matchAt (w ++ '.' :: 'n' :: 'a' :: 'm' :: 'e' :: ' ' :: '=' :: t) = none := by
  obtain ⟨h1, h2⟩ := span_append (w := w) (c := '.') hw (by decide)
  simp only [matchAt]
  by_cases he : ((w ++ '.' :: 'n' :: 'a' :: 'm' :: 'e' :: ' ' :: '=' :: t).takeWhile
      isWordChar).isEmpty = true
  · rw [if_pos he]
  · rw [if_neg he, h2]
    rfl

/-- The first character retained by `dropWhile` fails the predicate. -/
lemma dropWhile_head_false {p : Char → Bool} :
    ∀ {l : List Char} {c : Char} {t : List Char},
      l.dropWhile p = c :: t → p c = false := by
  intro l
  induction l with
  | nil => intro c t h; simp at h
  | cons a as ih =>
    intro c t h
    rw [List.dropWhile_cons] at h
    cases hpa : p a with
    | true =>
      rw [hpa] at h
      exact ih (by simpa using h)
    | false =>
      rw [hpa] at h
      simp only [Bool.false_eq_true, ite_false, List.cons.injEq] at h
      rw [← h.1]
      exact hpa

/-- A dot-free, quote-free fragment followed by a closing quote can start no
match. -/
lemma matchAt_none_append_quote {s : List Char}
    (hs : ∀ c ∈ s, c ≠ '.' ∧ c ≠ '\'') :
    matchAt (s ++ ['\'']) = none := by
  have hsplit := (List.takeWhile_append_dropWhile isWordChar s).symm
  have hw : ∀ x ∈ s.takeWhile isWordChar, isWordChar x = true :=
    fun x hx => List.mem_takeWhile_imp hx
  cases hd : s.dropWhile isWordChar with
  | nil =>
    have hse : s = s.takeWhile isWordChar := by
      conv_lhs => rw [hsplit]
      rw [hd, List.append_nil]
    have hws : ∀ x ∈ s, isWordChar x = true :=
      fun x hx => hw x (by rw [← hse]; exact hx)
    exact matchAt_none_word_nondot (w := s) (c := '\'') [] hws (by decide) (by decide)
  | cons c t =>
    have hcs : c ∈ s :=
      (List.dropWhile_suffix isWordChar).subset (hd ▸ List.mem_cons_self c t)
    have hcw : isWordChar c = false := dropWhile_head_false hd
    have hshape : s ++ ['\''] = s.takeWhile isWordChar ++ c :: (t ++ ['\'']) := by
      conv_lhs => rw [hsplit, hd]
      simp
    rw [hshape]
    exact matchAt_none_word_nondot _ hw hcw (hs c hcs).1

lemma matchCI_name_red (rest : List Char) :
    matchCI "name".toList ('n' :: 'a' :: 'm' :: 'e' :: rest)
      = some (['n', 'a', 'm', 'e'], rest) := rfl

lemma matchCI_contains_red (rest : List Char) :
    matchCI "contains".toList
        ('C' :: 'O' :: 'N' :: 'T' :: 'A' :: 'I' :: 'N' :: 'S' :: rest)
      = some (['C', 'O', 'N', 'T', 'A', 'I', 'N', 'S'], rest) := rfl

lemma takeWhile_space_one (rest : List Char) :
    (' ' :: 'C' :: rest).takeWhile isSpaceChar = [' '] := rfl

lemma dropWhile_space_one (rest : List Char) :
    (' ' :: 'C' :: rest).dropWhile isSpaceChar = 'C' :: rest := rfl

lemma dropWhile_space_quote (rest : List Char) :
    (' ' :: '\'' :: rest).dropWhile isSpaceChar = '\'' :: rest := rfl

/-- The pattern matches at the head of
`<word>.name CONTAINS '<quote-free literal>'<rest>`, capturing
`<word>.name CONTAINS` as group 1 and the literal as group 2. -/
lemma matchAt_some_contains {v lit : List Char} (t : List Char)
    (hv : v ≠ []) (hvw : ∀ c ∈ v, isWordChar c = true)
    (hlq : ∀ c ∈ lit, c ≠ '\'') :
    matchAt (v ++ '.' :: 'n' :: 'a' :: 'm' :: 'e' :: ' ' :: 'C' :: 'O' :: 'N'
        :: 'T' :: 'A' :: 'I' :: 'N' :: 'S' :: ' ' :: '\'' :: (lit ++ '\'' :: t))
      = some (v ++ '.' :: 'n' :: 'a' :: 'm' :: 'e' :: ' ' :: 'C' :: 'O' :: 'N'
          :: 'T' :: 'A' :: 'I' :: 'N' :: 'S' :: [], lit, t) := by
  obtain ⟨h1, h2⟩ := span_append (w := v) (c := '.')
    (t := 'n' :: 'a' :: 'm' :: 'e' :: ' ' :: 'C' :: 'O' :: 'N' :: 'T' :: 'A'
      :: 'I' :: 'N' :: 'S' :: ' ' :: '\'' :: (lit ++ '\'' :: t))
    hvw (by decide)
  obtain ⟨hq1, hq2⟩ := span_append (w := lit) (c := '\'') (t := t)
    (fun x hx => decide_eq_true (hlq x hx)) (by decide)
  have hvne : v.isEmpty = false := by
    cases v with
    | nil => exact absurd rfl hv
    | cons a as => rfl
  simp only [matchAt, h1, h2, matchCI_name_red, matchCI_contains_red,
    takeWhile_space_one, dropWhile_space_one, dropWhile_space_quote, hq1, hq2]
  rw [if_neg (by simp [hvne])]
  simp

/-- If the whole input is a single match, the substitution replaces it
entirely. -/
lemma subFuel_match_all {l g1 g2 : List Char}
    (hm : matchAt l = some (g1, g2, [])) :
    ∀ n, subFuel (n + 1) l = replOf g1 g2 := by
  intro n
  cases l with
  | nil => simp [matchAt] at hm
  | cons c cs =>
    simp only [subFuel, hm]
    rw [subFuel_nil n, List.append_nil]

/-- Suffixes of a concatenation split at the boundary. -/
lemma suffix_append_cases {α : Type} {s x y : List α} (h : s <:+ x ++ y) :
    s <:+ y ∨ ∃ s2, s2 <:+ x ∧ s = s2 ++ y := by
  induction x with
  | nil => exact Or.inl (by simpa using h)
  | cons a as ih =>
    rw [List.cons_append, List.suffix_cons_iff] at h
    rcases h with h | h
    · exact Or.inr ⟨a :: as, List.suffix_refl _, by simpa using h⟩
    · rcases ih h with h2 | ⟨s2, hs2, hse⟩
      · exact Or.inl h2
      · exact Or.inr ⟨s2, hs2.trans (List.suffix_cons a as), hse⟩

/-- No suffix of `<quote-free dot-free literal>'` starts a match. -/
lemma noMatch_lit_tail {lit : List Char}
    (hlit : ∀ c ∈ lit, c ≠ '.' ∧ c ≠ '\'') :
    ∀ s, s <:+ lit ++ ['\''] → matchAt s = none := by
  intro s hs
  rcases suffix_append_cases hs with h | ⟨s2, hs2, rfl⟩
  · rcases List.suffix_cons_iff.mp h with rfl | h2
    · exact matchAt_none_head _ (by decide)
    · rw [List.sublist_nil.mp h2.sublist]
      rfl
  · exact matchAt_none_append_quote (fun c hc => hlit c (hs2.subset hc))

/-- No suffix of `lower(<word>.name) CONTAINS '<literal>'` starts a match:
a comparison already wrapped in `lower()` is never rewritten again. -/
lemma noMatch_wrapped {v lit : List Char}
    (hvw : ∀ c ∈ v, isWordChar c = true)
    (hlit : ∀ c ∈ lit, c ≠ '.' ∧ c ≠ '\'') :
    ∀ s, s <:+ ('l' :: 'o' :: 'w' :: 'e' :: 'r' :: '(' ::
        (v ++ ('.' :: 'n' :: 'a' :: 'm' :: 'e' :: ')' :: ' ' :: 'C' :: 'O'
          :: 'N' :: 'T' :: 'A' :: 'I' :: 'N' :: 'S' :: ' ' :: '\''
          :: (lit ++ ['\''])))) →
      matchAt s = none := by
  intro s hs
  rcases List.suffix_cons_iff.mp hs with rfl | hs
  · exact matchAt_none_word_nondot (w := ['l', 'o', 'w', 'e', 'r']) _
      (by decide) (by decide) (by decide)
  rcases List.suffix_cons_iff.mp hs with rfl | hs
  · exact matchAt_none_word_nondot (w := ['o', 'w', 'e', 'r']) _
      (by decide) (by decide) (by decide)
  rcases List.suffix_cons_iff.mp hs with rfl | hs
  · exact matchAt_none_word_nondot (w := ['w', 'e', 'r']) _
      (by decide) (by decide) (by decide)
  rcases List.suffix_cons_iff.mp hs with rfl | hs
  · exact matchAt_none_word_nondot (w := ['e', 'r']) _
      (by decide) (by decide) (by decide)
  rcases List.suffix_cons_iff.mp hs with rfl | hs
  · exact matchAt_none_word_nondot (w := ['r']) _
      (by decide) (by decide) (by decide)
  rcases List.suffix_cons_iff.mp hs with rfl | hs
  · exact matchAt_none_head _ (by decide)
  rcases suffix_append_cases hs with hs | ⟨s2, hs2, rfl⟩
  swap
  · exact matchAt_none_name_rparen _ (fun c hc => hvw c (hs2.subset hc))
  rcases List.suffix_cons_iff.mp hs with rfl | hs
  · exact matchAt_none_head _ (by decide)
  rcases List.suffix_cons_iff.mp hs with rfl | hs
  · exact matchAt_none_word_nondot (w := ['n', 'a', 'm', 'e']) _
      (by decide) (by decide) (by decide)
  rcases List.suffix_cons_iff.mp hs with rfl | hs
  · exact matchAt_none_word_nondot (w := ['a', 'm', 'e']) _
      (by decide) (by decide) (by decide)
  rcases List.suffix_cons_iff.mp hs with rfl | hs
  · exact matchAt_none_word_nondot (w := ['m', 'e']) _
      (by decide) (by decide) (by decide)
  rcases List.suffix_cons_iff.mp hs with rfl | hs
  · exact matchAt_none_word_nondot (w := ['e']) _
      (by decide) (by decide) (by decide)
  rcases List.suffix_cons_iff.mp hs with rfl | hs
  · exact matchAt_none_head _ (by decide)
  rcases List.suffix_cons_iff.mp hs with rfl | hs
  · exact matchAt_none_head _ (by decide)
  rcases List.suffix_cons_iff.mp hs with rfl | hs
  · exact matchAt_none_word_nondot
      (w := ['C', 'O', 'N', 'T', 'A', 'I', 'N', 'S']) _
      (by decide) (by decide) (by decide)
  rcases List.suffix_cons_iff.mp hs with rfl | hs
  · exact matchAt_none_word_nondot (w := ['O', 'N', 'T', 'A', 'I', 'N', 'S']) _
      (by decide) (by decide) (by decide)
  rcases List.suffix_cons_iff.mp hs with rfl | hs
  · exact matchAt_none_word_nondot (w := ['N', 'T', 'A', 'I', 'N', 'S']) _
      (by decide) (by decide) (by decide)
  rcases List.suffix_cons_iff.mp hs with rfl | hs
  · exact matchAt_none_word_nondot (w := ['T', 'A', 'I', 'N', 'S']) _
      (by decide) (by decide) (by decide)
  rcases List.suffix_cons_iff.mp hs with rfl | hs
  · exact matchAt_none_word_nondot (w := ['A', 'I', 'N', 'S']) _
      (by decide) (by decide) (by decide)
  rcases List.suffix_cons_iff.mp hs with rfl | hs
  · exact matchAt_none_word_nondot (w := ['I', 'N', 'S']) _
      (by decide) (by decide) (by decide)
  rcases List.suffix_cons_iff.mp hs with rfl | hs
  · exact matchAt_none_word_nondot (w := ['N', 'S']) _
      (by decide) (by decide) (by decide)
  rcases List.suffix_cons_iff.mp hs with rfl | hs
  · exact matchAt_none_word_nondot (w := ['S']) _
      (by decide) (by decide) (by decide)
  rcases List.suffix_cons_iff.mp hs with rfl | hs
  · exact matchAt_none_head _ (by decide)
  rcases List.suffix_cons_iff.mp hs with rfl | hs
  · exact matchAt_none_head _ (by decide)
  exact noMatch_lit_tail hlit s hs

/-- No suffix of `<word>.name = '<literal>'` starts a match: equality
comparisons are never rewritten. -/
lemma noMatch_name_equality {v lit : List Char}
    (hvw : ∀ c ∈ v, isWordChar c = true)
    (hlit : ∀ c ∈ lit, c ≠ '.' ∧ c ≠ '\'') :
    ∀ s, s <:+ (v ++ ('.' :: 'n' :: 'a' :: 'm' :: 'e' :: ' ' :: '=' :: ' '
        :: '\'' :: (lit ++ ['\'']))) →
      matchAt s = none := by
  intro s hs
  rcases suffix_append_cases hs with hs | ⟨s2, hs2, rfl⟩
  swap
  · exact matchAt_none_name_eq _ (fun c hc => hvw c (hs2.subset hc))
  rcases List.suffix_cons_iff.mp hs with rfl | hs
  · exact matchAt_none_head _ (by decide)
  rcases List.suffix_cons_iff.mp hs with rfl | hs
  · exact matchAt_none_word_nondot (w := ['n', 'a', 'm', 'e']) _
      (by decide) (by decide) (by decide)
  rcases List.suffix_cons_iff.mp hs with rfl | hs
  · exact matchAt_none_word_nondot (w := ['a', 'm', 'e']) _
      (by decide) (by decide) (by decide)
  rcases List.suffix_cons_iff.mp hs with rfl | hs
  · exact matchAt_none_word_nondot (w := ['m', 'e']) _
      (by decide) (by decide) (by decide)
  rcases List.suffix_cons_iff.mp hs with rfl | hs
  · exact matchAt_none_word_nondot (w := ['e']) _
      (by decide) (by decide) (by decide)
  rcases List.suffix_cons_iff.mp hs with rfl | hs
  · exact matchAt_none_head _ (by decide)
  rcases List.suffix_cons_iff.mp hs with rfl | hs
  · exact matchAt_none_head _ (by decide)
  rcases List.suffix_cons_iff.mp hs with rfl | hs
  · exact matchAt_none_head _ (by decide)
  rcases List.suffix_cons_iff.mp hs with rfl | hs
  · exact matchAt_none_head _ (by decide)
  exact noMatch_lit_tail hlit s hs

/-- ASCII model of Python `str.lower` at the `String` level. -/
def strLower (s : String) : String := String.mk (lowerStr s.data)

/-- C5 (counterexample): a string-equality comparison on the `name` property
is not rewritten at all (its literal stays uppercase), and a CONTAINS
comparison on the Scholar name property `knownName` is not rewritten either —
the post-processor only targets the literal property name `name` with the
CONTAINS operator. -/
theorem post_process_equality_unchanged :
    postProcessQuery "MATCH (a) WHERE a.name = \x27Bob\x27 RETURN a.name"
      = "MATCH (a) WHERE a.name = \x27Bob\x27 RETURN a.name"
    ∧ postProcessQuery "MATCH (s:Scholar) WHERE s.knownName CONTAINS \x27Marie\x27 RETURN s"
      = "MATCH (s:Scholar) WHERE s.knownName CONTAINS \x27Marie\x27 RETURN s" := by
  exact ⟨by decide, by decide⟩

/-- C5 (amended): characterization of `_post_process_query` on the comparison
shapes, for every identifier `v` (nonempty, word characters) and every
dot-free quote-free literal `lit`:
1. `v.name CONTAINS 'lit'` is rewritten to
   `lower(v.name CONTAINS) CONTAINS '<lowercased lit>'` — the regex's first
   capture group includes the CONTAINS keyword, so the `lower()` call wraps
   `v.name CONTAINS`, and the literal operand is lowercased;
2. an already-wrapped comparison `lower(v.name) CONTAINS 'lit'` is unchanged
   (no double-wrapping);
3. an equality comparison `v.name = 'lit'` is unchanged (not rewritten). -/
theorem post_process_rewrite_characterization (v lit : String)
    (hv : v.data ≠ []) (hvw : ∀ c ∈ v.data, isWordChar c = true)
    (hlit : ∀ c ∈ lit.data, c ≠ '.' ∧ c ≠ '\'') :
    postProcessQuery (v ++ ".name CONTAINS \x27" ++ lit ++ "\x27")
      = "lower(" ++ v ++ ".name CONTAINS) CONTAINS \x27" ++ strLower lit ++ "\x27"
    ∧ postProcessQuery ("lower(" ++ v ++ ".name) CONTAINS \x27" ++ lit ++ "\x27")
      = "lower(" ++ v ++ ".name) CONTAINS \x27" ++ lit ++ "\x27"
    ∧ postProcessQuery (v ++ ".name = \x27" ++ lit ++ "\x27")
      = v ++ ".name = \x27" ++ lit ++ "\x27" := by
  have hlq : ∀ c ∈ lit.data, c ≠ '\'' := fun c hc => (hlit c hc).2
  refine ⟨?_, ?_, ?_⟩
  · have hdata : (v ++ ".name CONTAINS \x27" ++ lit ++ "\x27").data
        = v.data ++ ('.' :: 'n' :: 'a' :: 'm' :: 'e' :: ' ' :: 'C' :: 'O'
            :: 'N' :: 'T' :: 'A' :: 'I' :: 'N' :: 'S' :: ' ' :: '\''
            :: (lit.data ++ ['\''])) := by
      simp only [String.data_append, List.append_assoc]
      rfl
    obtain ⟨c, vs, hcv⟩ : ∃ c vs, v.data = c :: vs := by
      cases hvd : v.data with
      | nil => exact absurd hvd hv
      | cons c vs => exact ⟨c, vs, rfl⟩
    apply String.ext
    show subFuel (v ++ ".name CONTAINS \x27" ++ lit ++ "\x27").data.length
        (v ++ ".name CONTAINS \x27" ++ lit ++ "\x27").data = _
    rw [hdata, hcv]
    simp only [List.cons_append, List.length_cons]
    have hm2 : matchAt (c :: (vs ++ '.' :: 'n' :: 'a' :: 'm' :: 'e' :: ' '
        :: 'C' :: 'O' :: 'N' :: 'T' :: 'A' :: 'I' :: 'N' :: 'S' :: ' '
        :: '\'' :: (lit.data ++ ['\''])))
        = some ((c :: vs) ++ '.' :: 'n' :: 'a' :: 'm' :: 'e' :: ' ' :: 'C'
            :: 'O' :: 'N' :: 'T' :: 'A' :: 'I' :: 'N' :: 'S' :: [],
          lit.data, []) :=
      @matchAt_some_contains (c :: vs) lit.data []
        (by simp) (fun x hx => hvw x (hcv.symm ▸ hx)) hlq
    rw [subFuel_match_all hm2, ← hcv]
    simp only [replOf, String.data_append, List.append_assoc]
    rfl
  · have hdata2 : ("lower(" ++ v ++ ".name) CONTAINS \x27" ++ lit ++ "\x27").data
        = 'l' :: 'o' :: 'w' :: 'e' :: 'r' :: '(' ::
          (v.data ++ ('.' :: 'n' :: 'a' :: 'm' :: 'e' :: ')' :: ' ' :: 'C'
            :: 'O' :: 'N' :: 'T' :: 'A' :: 'I' :: 'N' :: 'S' :: ' ' :: '\''
            :: (lit.data ++ ['\'']))) := by
      simp only [String.data_append, List.append_assoc]
      rfl
    apply String.ext
    show subFuel ("lower(" ++ v ++ ".name) CONTAINS \x27" ++ lit ++ "\x27").data.length
        ("lower(" ++ v ++ ".name) CONTAINS \x27" ++ lit ++ "\x27").data = _
    rw [hdata2]
    exact subFuel_no_match (noMatch_wrapped hvw hlit) _
  · have hdata3 : (v ++ ".name = \x27" ++ lit ++ "\x27").data
        = v.data ++ ('.' :: 'n' :: 'a' :: 'm' :: 'e' :: ' ' :: '=' :: ' '
            :: '\'' :: (lit.data ++ ['\''])) := by
      simp only [String.data_append, List.append_assoc]
      rfl
    apply String.ext
    show subFuel (v ++ ".name = \x27" ++ lit ++ "\x27").data.length
        (v ++ ".name = \x27" ++ lit ++ "\x27").data = _
    rw [hdata3]
    exact subFuel_no_match (noMatch_name_equality hvw hlit) _

/-- Witness for C5 (amended) at `v = "a"`, `lit = "Bob"`. -/
theorem post_process_rewrite_characterization_witness :
    postProcessQuery ("a" ++ ".name CONTAINS \x27" ++ "Bob" ++ "\x27")
      = "lower(" ++ "a" ++ ".name CONTAINS) CONTAINS \x27" ++ strLower "Bob" ++ "\x27"
    ∧ postProcessQuery ("lower(" ++ "a" ++ ".name) CONTAINS \x27" ++ "Bob" ++ "\x27")
      = "lower(" ++ "a" ++ ".name) CONTAINS \x27" ++ "Bob" ++ "\x27"
    ∧ postProcessQuery ("a" ++ ".name = \x27" ++ "Bob" ++ "\x27")
      = "a" ++ ".name = \x27" ++ "Bob" ++ "\x27" :=
  post_process_rewrite_characterization "a" "Bob" (by decide) (by decide) (by decide)

end Workflow
